import Mathlib

/-!
Verification of the go-saga library (package saga): a shallow embedding of
the saga orchestration engine in saga.go, the Step abstraction in step.go,
the StateManager interface in state_manager.go and the reference in-memory
state manager in in_memory_state_manager.go.

Go errors are modelled as Option String (none is a nil error, some msg is an
error whose Error() message is msg). Step actions are closures with effects,
modelled as state transformers over an abstract world type ω. A StateManager
is a record of state-passing operations over an abstract store state σ.
Execute and Compensate additionally produce a trace of observable events
(which forward action ran, which compensating action ran, which state writes
were issued) and run inside a GoResult wrapper that models the runtime panic
an out-of-range slice index raises.
-/

namespace GoSaga

/-- The step struct of step.go: a name plus the forward and compensating
action closures. An action receives the world and returns a Go error
together with the updated world. -/
structure Step (ω : Type) where
  name : String
  forward : ω → Option String × ω
  compensate : ω → Option String × ω

/-- The StateManager interface of state_manager.go: SetStepState records the
completion state of a step index, StepState retrieves it. Both may mutate
the backing store state σ and may fail with a Go error. Step indices are Go
ints, modelled as Int. -/
structure StateManager (σ : Type) where
  SetStepState : Int → Bool → σ → Option String × σ
  StepState : Int → σ → Except String Bool × σ

/-- Observable events of a saga run: invocation of a forward action, of a
compensating action, or a SetStepState write with the flag written. -/
inductive Ev where
  | forward (i : Nat)
  | compensate (i : Nat)
  | setState (i : Nat) (b : Bool)
deriving DecidableEq, Repr

/-- Result of running Go code that may panic with an index-out-of-range
runtime error. -/
inductive GoResult (α : Type) where
  | ok (a : α)
  | panic
deriving DecidableEq, Repr

/-- The saga struct of saga.go: the ordered steps, the currentStep field (a
Go int) and the state manager. -/
structure Saga (σ ω : Type) where
  steps : List (Step ω)
  currentStep : Int
  stateManager : StateManager σ

/-- Message of errors.Wrapf from github.com/pkg/errors: the formatted
wrapping message, a colon and space, then the message of the cause. -/
def wrap (msg cause : String) : String := msg ++ ": " ++ cause

/-- Go fmt %v rendering of a slice of errors: the element messages inside
square brackets, separated by single spaces. -/
def fmtErrs (errs : List String) : String :=
  "[" ++ String.intercalate " " errs ++ "]"

/-- The loop body of saga.Compensate: iterate i from currentStep down to 0,
invoking each compensating action and appending any error to the collected
list; indexing steps[i] out of range panics. -/
def compLoop {ω : Type} (steps : List (Step ω)) (i : Int) (w : ω)
    (errs : List String) (tr : List Ev) :
    GoResult (List String × ω × List Ev) :=
  if _h : 0 ≤ i then
    match steps.get? i.toNat with
    | none => .panic
    | some st =>
      match st.compensate w with
      | (some e, w1) =>
        compLoop steps (i - 1) w1 (errs ++ [e]) (tr ++ [Ev.compensate i.toNat])
      | (none, w1) =>
        compLoop steps (i - 1) w1 errs (tr ++ [Ev.compensate i.toNat])
  else
    .ok (errs, w, tr)
termination_by (i + 1).toNat
decreasing_by all_goals omega

/-- Result of saga.Compensate: the returned error, the final world and the
trace of compensation events. -/
structure CompOut (ω : Type) where
  err : Option String
  world : ω
  trace : List Ev
deriving Repr

/-- The saga.Compensate method: run the compensation loop from currentStep
down to 0; if any compensation errors were collected, aggregate them into a
single error. -/
def Compensate {σ ω : Type} (sg : Saga σ ω) (w : ω) : GoResult (CompOut ω) :=
  match compLoop sg.steps sg.currentStep w [] [] with
  | .panic => .panic
  | .ok (errs, w1, tr) =>
    .ok ⟨if 0 < errs.length then
          some (wrap "compensation failed with errors" (fmtErrs errs))
        else none, w1, tr⟩

/-- Result of saga.Execute: the final value of the currentStep field, the
final state-manager store, the final world, the returned error and the
event trace. -/
structure ExecOut (σ ω : Type) where
  currentStep : Int
  store : σ
  world : ω
  err : Option String
  trace : List Ev

/-- The loop of saga.Execute, at loop counter i: stop when i is past the
last step; otherwise query the state manager (a failed query aborts with a
wrapped error), skip completed steps, run the forward action, record the
outcome (a failed write aborts with a wrapped error), and on forward
failure run Compensate with currentStep = i and return a wrapped error. -/
def execLoop {σ ω : Type} (steps : List (Step ω)) (sm : StateManager σ)
    (i : Nat) (σst : σ) (w : ω) (tr : List Ev) : GoResult (ExecOut σ ω) :=
  match hst : steps.get? i with
  | none => .ok ⟨(i : Int), σst, w, none, tr⟩
  | some st =>
    match sm.StepState (i : Int) σst with
    | (.error e, σ1) =>
      .ok ⟨(i : Int), σ1, w,
        some (wrap ("retrieving state for step " ++ st.name) e), tr⟩
    | (.ok true, σ1) => execLoop steps sm (i + 1) σ1 w tr
    | (.ok false, σ1) =>
      match st.forward w with
      | (some ferr, w1) =>
        match sm.SetStepState (i : Int) false σ1 with
        | (some serr, σ2) =>
          .ok ⟨(i : Int), σ2, w1,
            some (wrap ("setting state for step " ++ st.name) serr),
            tr ++ [Ev.forward i, Ev.setState i false]⟩
        | (none, σ2) =>
          match Compensate ⟨steps, (i : Int), sm⟩ w1 with
          | .panic => .panic
          | .ok c =>
            match c.err with
            | some cerr =>
              .ok ⟨(i : Int), σ2, c.world,
                some (wrap
                  ("compensating after failure in step " ++ st.name ++ ": " ++ ferr)
                  cerr),
                (tr ++ [Ev.forward i, Ev.setState i false]) ++ c.trace⟩
            | none =>
              .ok ⟨(i : Int), σ2, c.world,
                some (wrap ("executing step " ++ st.name) ferr),
                (tr ++ [Ev.forward i, Ev.setState i false]) ++ c.trace⟩
      | (none, w1) =>
        match sm.SetStepState (i : Int) true σ1 with
        | (some serr, σ2) =>
          .ok ⟨(i : Int), σ2, w1,
            some (wrap ("setting state for step " ++ st.name) serr),
            tr ++ [Ev.forward i, Ev.setState i true]⟩
        | (none, σ2) =>
          execLoop steps sm (i + 1) σ2 w1 (tr ++ [Ev.forward i, Ev.setState i true])
termination_by steps.length - i
decreasing_by
  all_goals
    obtain ⟨hlt, _⟩ := List.get?_eq_some.mp hst
    omega

/-- The saga.Execute method: run the loop from index 0 with an empty trace.
The currentStep field is reset by the loop initializer, so its prior value
is irrelevant; the final value is reported in the output. -/
def Execute {σ ω : Type} (sg : Saga σ ω) (σst : σ) (w : ω) :
    GoResult (ExecOut σ ω) :=
  execLoop sg.steps sg.stateManager 0 σst w []

/-- The backing state of InMemoryStateManager: the map from step index to
completion flag, modelled as an association list in which the most recent
binding for a key shadows older ones. -/
abbrev InMemoryState := List (Int × Bool)

/-- InMemoryStateManager.SetStepState: record the flag for the index,
overwriting any prior record; never fails. -/
def inMemorySet (i : Int) (b : Bool) (s : InMemoryState) :
    Option String × InMemoryState :=
  (none, (i, b) :: s)

/-- InMemoryStateManager.StepState: a missing record reads as false; never
fails and leaves the store unchanged. -/
def inMemoryGet (i : Int) (s : InMemoryState) :
    Except String Bool × InMemoryState :=
  match List.lookup i s with
  | some b => (.ok b, s)
  | none => (.ok false, s)

/-- NewInMemoryStateManager, packaged as a StateManager over the
association-list store. -/
def NewInMemoryStateManager : StateManager InMemoryState :=
  ⟨inMemorySet, inMemoryGet⟩

/-- The New constructor with no options: a saga with no steps, currentStep
zero and the default in-memory state manager. -/
def NewSaga (ω : Type) : Saga InMemoryState ω :=
  ⟨[], 0, NewInMemoryStateManager⟩

/-- AddStep: append a step to the saga. -/
def AddStep {σ ω : Type} (sg : Saga σ ω) (st : Step ω) : Saga σ ω :=
  { sg with steps := sg.steps ++ [st] }

/-- The list of compensation-error messages that one pass of the Compensate
loop from index n down to 0 collects, together with the world after the
pass. This restates the collection performed by compLoop for in-range
starting indices and is related to compLoop by compLoop_spec. -/
def compFails {ω : Type} (steps : List (Step ω)) : Nat → ω → List String × ω
  | 0, w =>
    match steps.get? 0 with
    | none => ([], w)
    | some st =>
      match st.compensate w with
      | (some e, w1) => ([e], w1)
      | (none, w1) => ([], w1)
  | n + 1, w =>
    match steps.get? (n + 1) with
    | none => ([], w)
    | some st =>
      match st.compensate w with
      | (some e, w1) => (e :: (compFails steps n w1).1, (compFails steps n w1).2)
      | (none, w1) => compFails steps n w1

/-- Test for a compensation event in a trace. -/
def isCompEv : Ev → Bool
  | .compensate _ => true
  | _ => false

/-- Concrete step named step1 whose forward and compensating actions both
succeed, as in the two-step test scenarios of saga_test.go. -/
def step1U : Step Unit :=
  ⟨"step1", fun w => (none, w), fun w => (none, w)⟩

/-- Concrete step named step2 whose forward action fails with message
"step2 error" and whose compensating action succeeds. -/
def step2U : Step Unit :=
  ⟨"step2", fun w => (some "step2 error", w), fun w => (none, w)⟩

/-- Concrete step named step2 whose forward action fails with message
"step2 error" and whose compensating action fails with message
"step2 compensate error". -/
def step2c : Step Unit :=
  ⟨"step2", fun w => (some "step2 error", w),
    fun w => (some "step2 compensate error", w)⟩

/-- A state manager whose reads report not-completed and whose writes
always fail with message "boom", as the mock state manager in
saga_test.go does. -/
def failingSet : StateManager Unit :=
  ⟨fun _ _ s => (some "boom", s), fun _ s => (.ok false, s)⟩

/-- A state manager whose reads always fail with message "boom", as the
mock state manager in saga_test.go does. -/
def failingRead : StateManager Unit :=
  ⟨fun _ _ s => (none, s), fun _ s => (.error "boom", s)⟩

/-- The output of running the two-step saga step1U, step2U against a fresh
in-memory store: step 2 fails, both compensations run, the error is the
wrapped forward failure. -/
def demoOut1 : ExecOut InMemoryState Unit :=
  ⟨1, [(1, false), (0, true)], (),
    some "executing step step2: step2 error",
    [Ev.forward 0, Ev.setState 0 true, Ev.forward 1, Ev.setState 1 false,
      Ev.compensate 1, Ev.compensate 0]⟩

/-- The output of re-running the same saga against the store left by
demoOut1: step 1 is skipped, step 2 fails again. -/
def demoOut2 : ExecOut InMemoryState Unit :=
  ⟨1, [(1, false), (1, false), (0, true)], (),
    some "executing step step2: step2 error",
    [Ev.forward 1, Ev.setState 1 false, Ev.compensate 1, Ev.compensate 0]⟩

/-- The compensation loop returns immediately for a negative index. -/
theorem compLoop_stop {ω : Type} (steps : List (Step ω)) (i : Int) (w : ω)
    (errs : List String) (tr : List Ev) (h : i < 0) :
    compLoop steps i w errs tr = .ok (errs, w, tr) := by
  rw [compLoop, dif_neg (by omega)]

/-- The compensation loop panics when the index is in range of the loop but
out of range of the step list. -/
theorem compLoop_oob {ω : Type} (steps : List (Step ω)) (i : Int) (w : ω)
    (errs : List String) (tr : List Ev) (h0 : 0 ≤ i)
    (hget : steps.get? i.toNat = none) :
    compLoop steps i w errs tr = .panic := by
  rw [compLoop, dif_pos h0, hget]

/-- One iteration of the compensation loop: invoke the compensating action
of the step at the current index, collect its error if any, and continue
one index lower. -/
theorem compLoop_step {ω : Type} (steps : List (Step ω)) (i : Int) (w : ω)
    (errs : List String) (tr : List Ev) (st : Step ω) (r : Option String)
    (w1 : ω) (h0 : 0 ≤ i) (hget : steps.get? i.toNat = some st)
    (hc : st.compensate w = (r, w1)) :
    compLoop steps i w errs tr =
      compLoop steps (i - 1) w1
        (errs ++ (match r with | some e => [e] | none => []))
        (tr ++ [Ev.compensate i.toNat]) := by
  rw [compLoop, dif_pos h0]
  simp only [hget, hc]
  cases r <;> simp

/-- Unfolding of the execute loop past the last step: the loop exits and
Execute returns nil. -/
theorem execLoop_end {σ ω : Type} (steps : List (Step ω)) (sm : StateManager σ)
    (i : Nat) (σst : σ) (w : ω) (tr : List Ev)
    (hget : steps.get? i = none) :
    execLoop steps sm i σst w tr = .ok ⟨(i : Int), σst, w, none, tr⟩ := by
  rw [execLoop]
  split
  · rfl
  · rename_i st heq
    rw [hget] at heq
    exact Option.noConfusion heq

/-- Unfolding of the execute loop when the state query fails: abort with a
wrapped error. -/
theorem execLoop_readErr {σ ω : Type} (steps : List (Step ω))
    (sm : StateManager σ) (i : Nat) (σst : σ) (w : ω) (tr : List Ev)
    (st : Step ω) (e : String) (σ1 : σ)
    (hget : steps.get? i = some st)
    (hq : sm.StepState (i : Int) σst = (.error e, σ1)) :
    execLoop steps sm i σst w tr =
      .ok ⟨(i : Int), σ1, w,
        some (wrap ("retrieving state for step " ++ st.name) e), tr⟩ := by
  rw [execLoop]
  split
  · rename_i heq
    rw [hget] at heq
    exact Option.noConfusion heq
  · rename_i st0 heq
    rw [hget] at heq
    cases heq
    simp only [hq]

/-- Unfolding of the execute loop when the step is recorded as completed:
skip it. -/
theorem execLoop_skip {σ ω : Type} (steps : List (Step ω))
    (sm : StateManager σ) (i : Nat) (σst : σ) (w : ω) (tr : List Ev)
    (st : Step ω) (σ1 : σ)
    (hget : steps.get? i = some st)
    (hq : sm.StepState (i : Int) σst = (.ok true, σ1)) :
    execLoop steps sm i σst w tr = execLoop steps sm (i + 1) σ1 w tr := by
  rw [execLoop]
  split
  · rename_i heq
    rw [hget] at heq
    exact Option.noConfusion heq
  · rename_i st0 heq
    rw [hget] at heq
    cases heq
    simp only [hq]

/-- Unfolding of the execute loop when the forward action succeeds and the
success record is written: continue with the next index. -/
theorem execLoop_fwdOk {σ ω : Type} (steps : List (Step ω))
    (sm : StateManager σ) (i : Nat) (σst : σ) (w : ω) (tr : List Ev)
    (st : Step ω) (σ1 : σ) (w1 : ω) (σ2 : σ)
    (hget : steps.get? i = some st)
    (hq : sm.StepState (i : Int) σst = (.ok false, σ1))
    (hf : st.forward w = (none, w1))
    (hs : sm.SetStepState (i : Int) true σ1 = (none, σ2)) :
    execLoop steps sm i σst w tr =
      execLoop steps sm (i + 1) σ2 w1
        (tr ++ [Ev.forward i, Ev.setState i true]) := by
  rw [execLoop]
  split
  · rename_i heq
    rw [hget] at heq
    exact Option.noConfusion heq
  · rename_i st0 heq
    rw [hget] at heq
    cases heq
    simp only [hq, hf, hs]

/-- Unfolding of the execute loop when the forward action succeeds but
writing the success record fails: abort with a wrapped error and no
compensation. -/
theorem execLoop_setErrOk {σ ω : Type} (steps : List (Step ω))
    (sm : StateManager σ) (i : Nat) (σst : σ) (w : ω) (tr : List Ev)
    (st : Step ω) (σ1 : σ) (w1 : ω) (serr : String) (σ2 : σ)
    (hget : steps.get? i = some st)
    (hq : sm.StepState (i : Int) σst = (.ok false, σ1))
    (hf : st.forward w = (none, w1))
    (hs : sm.SetStepState (i : Int) true σ1 = (some serr, σ2)) :
    execLoop steps sm i σst w tr =
      .ok ⟨(i : Int), σ2, w1,
        some (wrap ("setting state for step " ++ st.name) serr),
        tr ++ [Ev.forward i, Ev.setState i true]⟩ := by
  rw [execLoop]
  split
  · rename_i heq
    rw [hget] at heq
    exact Option.noConfusion heq
  · rename_i st0 heq
    rw [hget] at heq
    cases heq
    simp only [hq, hf, hs]

/-- Unfolding of the execute loop when the forward action fails and writing
the failure record also fails: abort with a wrapped error and no
compensation. -/
theorem execLoop_setErrFail {σ ω : Type} (steps : List (Step ω))
    (sm : StateManager σ) (i : Nat) (σst : σ) (w : ω) (tr : List Ev)
    (st : Step ω) (σ1 : σ) (ferr : String) (w1 : ω) (serr : String) (σ2 : σ)
    (hget : steps.get? i = some st)
    (hq : sm.StepState (i : Int) σst = (.ok false, σ1))
    (hf : st.forward w = (some ferr, w1))
    (hs : sm.SetStepState (i : Int) false σ1 = (some serr, σ2)) :
    execLoop steps sm i σst w tr =
      .ok ⟨(i : Int), σ2, w1,
        some (wrap ("setting state for step " ++ st.name) serr),
        tr ++ [Ev.forward i, Ev.setState i false]⟩ := by
  rw [execLoop]
  split
  · rename_i heq
    rw [hget] at heq
    exact Option.noConfusion heq
  · rename_i st0 heq
    rw [hget] at heq
    cases heq
    simp only [hq, hf, hs]

/-- Unfolding of the execute loop when the forward action fails and its
failure record is written: compensation runs from the current index, and
the returned error depends on whether compensation itself failed. -/
theorem execLoop_fail {σ ω : Type} (steps : List (Step ω))
    (sm : StateManager σ) (i : Nat) (σst : σ) (w : ω) (tr : List Ev)
    (st : Step ω) (σ1 : σ) (ferr : String) (w1 : ω) (σ2 : σ) (c : CompOut ω)
    (hget : steps.get? i = some st)
    (hq : sm.StepState (i : Int) σst = (.ok false, σ1))
    (hf : st.forward w = (some ferr, w1))
    (hs : sm.SetStepState (i : Int) false σ1 = (none, σ2))
    (hcomp : Compensate ⟨steps, (i : Int), sm⟩ w1 = .ok c) :
    execLoop steps sm i σst w tr =
      .ok ⟨(i : Int), σ2, c.world,
        some (match c.err with
          | some cerr =>
            wrap ("compensating after failure in step " ++ st.name ++ ": " ++ ferr)
              cerr
          | none => wrap ("executing step " ++ st.name) ferr),
        (tr ++ [Ev.forward i, Ev.setState i false]) ++ c.trace⟩ := by
  rw [execLoop]
  split
  · rename_i heq
    rw [hget] at heq
    exact Option.noConfusion heq
  · rename_i st0 heq
    rw [hget] at heq
    cases heq
    simp only [hq, hf, hs, hcomp]
    cases hce : c.err <;> simp [hce]

/-- The in-memory read returns the recorded flag or false when no record
exists, never fails, and never changes the store. -/
theorem inMemoryGet_eq (i : Int) (s : InMemoryState) :
    inMemoryGet i s = (.ok ((List.lookup i s).getD false), s) := by
  unfold inMemoryGet
  cases List.lookup i s <;> rfl

/-- Looking up the key just written finds the new record. -/
theorem lookup_cons_self (i : Int) (b : Bool) (s : InMemoryState) :
    List.lookup i ((i, b) :: s) = some b := by
  simp [List.lookup]

/-- Looking up a different key skips the new record. -/
theorem lookup_cons_ne (i j : Int) (b : Bool) (s : InMemoryState)
    (hij : j ≠ i) : List.lookup j ((i, b) :: s) = List.lookup j s := by
  have hb : (j == i) = false := beq_eq_false_iff_ne.mpr hij
  simp [List.lookup, hb]

/-- The compensation loop, started at an in-range index n, runs to
completion: it appends the collected failure messages computed by compFails,
produces the world computed by compFails, and appends one compensation
event per index from n down to 0, in that order. -/
theorem compLoop_spec {ω : Type} (steps : List (Step ω)) :
    ∀ (n : Nat), n < steps.length → ∀ (w : ω) (errs : List String) (tr : List Ev),
    compLoop steps (n : Int) w errs tr =
      .ok (errs ++ (compFails steps n w).1, (compFails steps n w).2,
        tr ++ (List.range (n + 1)).reverse.map Ev.compensate) := by
  intro n
  induction n with
  | zero =>
    intro hn w errs tr
    have hget : steps.get? 0 = some (steps.get ⟨0, hn⟩) := List.get?_eq_get hn
    rcases hc : (steps.get ⟨0, hn⟩).compensate w with ⟨r, w1⟩
    rw [Nat.cast_zero]
    rw [compLoop_step steps 0 w errs tr (steps.get ⟨0, hn⟩) r w1 (by omega)
      (by simp [hget]) hc]
    rw [compLoop_stop _ _ _ _ _ (by omega)]
    simp only [compFails, hget, hc]
    cases r <;> simp [show List.range 1 = [0] from rfl]
  | succ n ih =>
    intro hn w errs tr
    have hnn : n < steps.length := by omega
    have hget : steps.get? (n + 1) = some (steps.get ⟨n + 1, hn⟩) :=
      List.get?_eq_get hn
    rcases hc : (steps.get ⟨n + 1, hn⟩).compensate w with ⟨r, w1⟩
    have h0 : (0 : Int) ≤ ((n + 1 : Nat) : Int) := by positivity
    have htn : (((n + 1 : Nat) : Int)).toNat = n + 1 := by omega
    rw [compLoop_step steps ((n + 1 : Nat) : Int) w errs tr
      (steps.get ⟨n + 1, hn⟩) r w1 h0 (by rw [htn]; exact hget) hc]
    have hstep : ((n + 1 : Nat) : Int) - 1 = ((n : Nat) : Int) := by push_cast; ring
    rw [htn, hstep, ih hnn]
    simp only [compFails, hget, hc]
    cases r <;> simp [List.range_succ]

/-- Compensate, called with currentStep an in-range index c, never panics:
it returns the aggregated error over the compFails list (or nil when no
compensation failed) and a trace of exactly one compensation event per
index from c down to 0. -/
theorem Compensate_spec {σ ω : Type} (sm : StateManager σ)
    (steps : List (Step ω)) (c : Nat) (hc : c < steps.length) (w : ω) :
    Compensate ⟨steps, (c : Int), sm⟩ w =
      .ok ⟨if 0 < (compFails steps c w).1.length then
            some (wrap "compensation failed with errors"
              (fmtErrs (compFails steps c w).1))
          else none,
        (compFails steps c w).2,
        (List.range (c + 1)).reverse.map Ev.compensate⟩ := by
  unfold Compensate
  rw [show (Saga.mk steps ((c : Nat) : Int) sm).currentStep = ((c : Nat) : Int) from rfl]
  rw [compLoop_spec steps c hc w [] []]
  simp

/-- Compensate panics whenever currentStep is at least the number of steps:
the first slice access steps[currentStep] is out of range. -/
theorem Compensate_panic {σ ω : Type} (sm : StateManager σ)
    (steps : List (Step ω)) (c : Int) (hc : (steps.length : Int) ≤ c) (w : ω) :
    Compensate ⟨steps, c, sm⟩ w = .panic := by
  unfold Compensate
  have h0 : (0 : Int) ≤ c := le_trans (by positivity) hc
  have hget : steps.get? c.toNat = none := List.get?_eq_none.mpr (by omega)
  rw [show (Saga.mk steps c sm).currentStep = c from rfl]
  rw [compLoop_oob steps c w [] [] h0 hget]

/-- Forward progress of the execute loop over the in-memory store: as long
as every step below k has an always-succeeding forward action, the loop
runs (or skips) its way from index i up to index k. Records at or above k
and below i are untouched, every index in between ends up recorded as
completed, and the events emitted are only forward invocations and success
writes for indices in between. -/
theorem runTo {ω : Type} (steps : List (Step ω)) (k : Nat) (hk : k ≤ steps.length)
    (hf : ∀ (j : Nat) (hj : j < steps.length), j < k → ∀ w1 : ω,
      ((steps.get ⟨j, hj⟩).forward w1).1 = none) :
    ∀ (m i : Nat), i + m = k → ∀ (σ : InMemoryState) (w : ω) (tr : List Ev),
    ∃ (σ1 : InMemoryState) (w1 : ω) (trNew : List Ev),
      execLoop steps NewInMemoryStateManager i σ w tr =
        execLoop steps NewInMemoryStateManager k σ1 w1 (tr ++ trNew) ∧
      (∀ j : Nat, (j < i ∨ k ≤ j) →
        List.lookup (j : Int) σ1 = List.lookup (j : Int) σ) ∧
      (∀ j : Nat, i ≤ j → j < k → List.lookup (j : Int) σ1 = some true) ∧
      (∀ e ∈ trNew, ∃ j, i ≤ j ∧ j < k ∧
        (e = Ev.forward j ∨ e = Ev.setState j true)) := by
  intro m
  induction m with
  | zero =>
    intro i hi σ w tr
    have hik : i = k := by omega
    subst hik
    exact ⟨σ, w, [], by simp, fun j _ => rfl,
      fun j h1 h2 => absurd h2 (by omega), by simp⟩
  | succ m ih =>
    intro i hi σ w tr
    have hik : i < k := by omega
    have hilen : i < steps.length := by omega
    have hget : steps.get? i = some (steps.get ⟨i, hilen⟩) := List.get?_eq_get hilen
    have hq := inMemoryGet_eq (i : Int) σ
    cases hb : (List.lookup (i : Int) σ).getD false with
    | true =>
      have hl : List.lookup (i : Int) σ = some true := by
        cases ho : List.lookup (i : Int) σ with
        | none => rw [ho] at hb; simp at hb
        | some b => rw [ho] at hb; simp at hb; rw [hb]
      rw [hb] at hq
      rw [execLoop_skip steps _ i σ w tr _ σ hget hq]
      obtain ⟨σ1, w1, trNew, heq, hpre, htrue, hev⟩ := ih (i + 1) (by omega) σ w tr
      refine ⟨σ1, w1, trNew, heq, ?_, ?_, ?_⟩
      · intro j hj
        exact hpre j (by omega)
      · intro j h1 h2
        rcases Nat.eq_or_lt_of_le h1 with h | h
        · have hp := hpre j (Or.inl (by omega))
          rw [hp, ← h]
          exact hl
        · exact htrue j (by omega) h2
      · intro e he
        obtain ⟨j, h1, h2, h3⟩ := hev e he
        exact ⟨j, by omega, h2, h3⟩
    | false =>
      rw [hb] at hq
      rcases hfw : (steps.get ⟨i, hilen⟩).forward w with ⟨r, w2⟩
      have hr : r = none := by
        have hx := hf i hilen hik w
        rw [hfw] at hx
        exact hx
      subst hr
      have hs : NewInMemoryStateManager.SetStepState (i : Int) true σ =
          (none, ((i : Int), true) :: σ) := rfl
      rw [execLoop_fwdOk steps _ i σ w tr _ σ w2 _ hget hq hfw hs]
      obtain ⟨σ1, w1, trNew, heq, hpre, htrue, hev⟩ :=
        ih (i + 1) (by omega) (((i : Int), true) :: σ) w2
          (tr ++ [Ev.forward i, Ev.setState i true])
      refine ⟨σ1, w1, [Ev.forward i, Ev.setState i true] ++ trNew, ?_, ?_, ?_, ?_⟩
      · rw [heq, List.append_assoc]
      · intro j hj
        have hne : (j : Int) ≠ (i : Int) := by
          intro hcontra
          have : j = i := by exact_mod_cast hcontra
          omega
        rw [hpre j (by omega)]
        exact lookup_cons_ne _ _ _ _ hne
      · intro j h1 h2
        rcases Nat.eq_or_lt_of_le h1 with h | h
        · have hp := hpre j (Or.inl (by omega))
          rw [hp, ← h]
          exact lookup_cons_self _ _ _
        · exact htrue j (by omega) h2
      · intro e he
        rcases List.mem_append.mp he with h | h
        · simp only [List.mem_cons, List.not_mem_nil, or_false] at h
          rcases h with h | h
          · exact ⟨i, le_refl i, hik, Or.inl h⟩
          · exact ⟨i, le_refl i, hik, Or.inr h⟩
        · obtain ⟨j, h1, h2, h3⟩ := hev e h
          exact ⟨j, by omega, h2, h3⟩

/-- Skipping lemma: over the in-memory store, when every index below k is
recorded as completed, the execute loop never emits a forward event for an
index below k (beyond those already in the accumulated trace): completed
steps are never re-invoked, and compensation events are not forward
events. -/
theorem noForward {ω : Type} (steps : List (Step ω)) (k : Nat) :
    ∀ (m i : Nat), steps.length - i ≤ m →
    ∀ (σ : InMemoryState) (w : ω) (tr : List Ev) (out : ExecOut InMemoryState ω),
    (∀ j : Nat, j < k → i ≤ j → List.lookup (j : Int) σ = some true) →
    execLoop steps NewInMemoryStateManager i σ w tr = .ok out →
    ∀ j, j < k → Ev.forward j ∈ out.trace → Ev.forward j ∈ tr := by
  intro m
  induction m with
  | zero =>
    intro i hi σ w tr out hσ hrun j hj hmem
    have hget : steps.get? i = none := List.get?_eq_none.mpr (by omega)
    rw [execLoop_end _ _ _ _ _ _ hget] at hrun
    cases hrun
    exact hmem
  | succ m ih =>
    intro i hi σ w tr out hσ hrun j hj hmem
    cases hcase : steps.get? i with
    | none =>
      rw [execLoop_end _ _ _ _ _ _ hcase] at hrun
      cases hrun
      exact hmem
    | some st =>
      have hilen : i < steps.length := (List.get?_eq_some.mp hcase).1
      have hq := inMemoryGet_eq (i : Int) σ
      cases hb : (List.lookup (i : Int) σ).getD false with
      | true =>
        rw [hb] at hq
        rw [execLoop_skip steps _ i σ w tr st σ hcase hq] at hrun
        exact ih (i + 1) (by omega) σ w tr out
          (fun j2 hj2 hij2 => hσ j2 hj2 (by omega)) hrun j hj hmem
      | false =>
        rw [hb] at hq
        have hik : k ≤ i := by
          by_contra hc
          push_neg at hc
          have hx := hσ i hc (le_refl i)
          rw [hx] at hb
          simp at hb
        rcases hfw : st.forward w with ⟨r, w1⟩
        cases r with
        | none =>
          have hs : NewInMemoryStateManager.SetStepState (i : Int) true σ =
              (none, ((i : Int), true) :: σ) := rfl
          rw [execLoop_fwdOk steps _ i σ w tr st σ w1 _ hcase hq hfw hs] at hrun
          have hmem2 := ih (i + 1) (by omega) (((i : Int), true) :: σ) w1
            (tr ++ [Ev.forward i, Ev.setState i true]) out
            (fun j2 hj2 hij2 => by
              rw [lookup_cons_ne _ _ _ _ (by
                intro hcontra
                have hji : j2 = i := by exact_mod_cast hcontra
                omega)]
              exact hσ j2 hj2 (by omega))
            hrun j hj hmem
          rcases List.mem_append.mp hmem2 with h | h
          · exact h
          · simp only [List.mem_cons, List.not_mem_nil, or_false] at h
            rcases h with h | h
            · injection h with h2
              omega
            · exact Ev.noConfusion h
        | some ferr =>
          have hs : NewInMemoryStateManager.SetStepState (i : Int) false σ =
              (none, ((i : Int), false) :: σ) := rfl
          have hcm := Compensate_spec NewInMemoryStateManager steps i hilen w1
          rw [execLoop_fail steps _ i σ w tr st σ ferr w1 _ _ hcase hq hfw hs hcm]
            at hrun
          cases hrun
          dsimp only at hmem
          rcases List.mem_append.mp hmem with h | h
          · rcases List.mem_append.mp h with h2 | h2
            · exact h2
            · simp only [List.mem_cons, List.not_mem_nil, or_false] at h2
              rcases h2 with h2 | h2
              · injection h2 with h3
                omega
              · exact Ev.noConfusion h2
          · obtain ⟨j2, _, hj2⟩ := List.mem_map.mp h
            exact Ev.noConfusion hj2

/-- Completion-record invariant over the in-memory store: assuming every
index below the starting index is recorded completed, after any run of the
execute loop every index below the final currentStep is recorded
completed. -/
theorem invLookup {ω : Type} (steps : List (Step ω)) :
    ∀ (m i : Nat), steps.length - i ≤ m →
    ∀ (σ : InMemoryState) (w : ω) (tr : List Ev) (out : ExecOut InMemoryState ω),
    (∀ j : Nat, j < i → List.lookup (j : Int) σ = some true) →
    execLoop steps NewInMemoryStateManager i σ w tr = .ok out →
    ∀ j : Nat, (j : Int) < out.currentStep →
      List.lookup (j : Int) out.store = some true := by
  intro m
  induction m with
  | zero =>
    intro i hi σ w tr out hσ hrun j hj
    have hget : steps.get? i = none := List.get?_eq_none.mpr (by omega)
    rw [execLoop_end _ _ _ _ _ _ hget] at hrun
    cases hrun
    dsimp only at hj ⊢
    exact hσ j (by exact_mod_cast hj)
  | succ m ih =>
    intro i hi σ w tr out hσ hrun j hj
    cases hcase : steps.get? i with
    | none =>
      rw [execLoop_end _ _ _ _ _ _ hcase] at hrun
      cases hrun
      dsimp only at hj ⊢
      exact hσ j (by exact_mod_cast hj)
    | some st =>
      have hilen : i < steps.length := (List.get?_eq_some.mp hcase).1
      have hq := inMemoryGet_eq (i : Int) σ
      cases hb : (List.lookup (i : Int) σ).getD false with
      | true =>
        have hl : List.lookup (i : Int) σ = some true := by
          cases ho : List.lookup (i : Int) σ with
          | none => rw [ho] at hb; simp at hb
          | some b => rw [ho] at hb; simp at hb; rw [hb]
        rw [hb] at hq
        rw [execLoop_skip steps _ i σ w tr st σ hcase hq] at hrun
        refine ih (i + 1) (by omega) σ w tr out ?_ hrun j hj
        intro j2 hj2
        rcases Nat.lt_succ_iff_lt_or_eq.mp hj2 with h | h
        · exact hσ j2 h
        · rw [h]
          exact hl
      | false =>
        rw [hb] at hq
        rcases hfw : st.forward w with ⟨r, w1⟩
        cases r with
        | none =>
          have hs : NewInMemoryStateManager.SetStepState (i : Int) true σ =
              (none, ((i : Int), true) :: σ) := rfl
          rw [execLoop_fwdOk steps _ i σ w tr st σ w1 _ hcase hq hfw hs] at hrun
          refine ih (i + 1) (by omega) _ w1 _ out ?_ hrun j hj
          intro j2 hj2
          rcases Nat.lt_succ_iff_lt_or_eq.mp hj2 with h | h
          · rw [lookup_cons_ne _ _ _ _ (by
              intro hcontra
              have hji : j2 = i := by exact_mod_cast hcontra
              omega)]
            exact hσ j2 h
          · rw [h]
            exact lookup_cons_self _ _ _
        | some ferr =>
          have hs : NewInMemoryStateManager.SetStepState (i : Int) false σ =
              (none, ((i : Int), false) :: σ) := rfl
          have hcm := Compensate_spec NewInMemoryStateManager steps i hilen w1
          rw [execLoop_fail steps _ i σ w tr st σ ferr w1 _ _ hcase hq hfw hs hcm]
            at hrun
          cases hrun
          dsimp only at hj ⊢
          have hji : j < i := by exact_mod_cast hj
          rw [lookup_cons_ne _ _ _ _ (by
            intro hcontra
            have : j = i := by exact_mod_cast hcontra
            omega)]
          exact hσ j hji

/-- Trace shape over the in-memory store: a run of the execute loop either
emits no compensation event at all, or its trace ends with the failing
step's not-completed write followed immediately by the compensation pass
from that step down to 0, with no compensation event before the write; the
failing step is the final currentStep and it is recorded not-completed. -/
theorem traceShape {ω : Type} (steps : List (Step ω)) :
    ∀ (m i : Nat), steps.length - i ≤ m →
    ∀ (σ : InMemoryState) (w : ω) (tr : List Ev) (out : ExecOut InMemoryState ω),
    (∀ j, Ev.compensate j ∉ tr) →
    execLoop steps NewInMemoryStateManager i σ w tr = .ok out →
    (∀ j, Ev.compensate j ∉ out.trace) ∨
    (∃ t1 mIdx, out.trace =
        t1 ++ Ev.setState mIdx false ::
          (List.range (mIdx + 1)).reverse.map Ev.compensate ∧
      (∀ j, Ev.compensate j ∉ t1) ∧ (mIdx : Int) = out.currentStep ∧
      List.lookup (mIdx : Int) out.store = some false) := by
  intro m
  induction m with
  | zero =>
    intro i hi σ w tr out htr hrun
    have hget : steps.get? i = none := List.get?_eq_none.mpr (by omega)
    rw [execLoop_end _ _ _ _ _ _ hget] at hrun
    cases hrun
    exact Or.inl htr
  | succ m ih =>
    intro i hi σ w tr out htr hrun
    cases hcase : steps.get? i with
    | none =>
      rw [execLoop_end _ _ _ _ _ _ hcase] at hrun
      cases hrun
      exact Or.inl htr
    | some st =>
      have hilen : i < steps.length := (List.get?_eq_some.mp hcase).1
      have hq := inMemoryGet_eq (i : Int) σ
      cases hb : (List.lookup (i : Int) σ).getD false with
      | true =>
        rw [hb] at hq
        rw [execLoop_skip steps _ i σ w tr st σ hcase hq] at hrun
        exact ih (i + 1) (by omega) σ w tr out htr hrun
      | false =>
        rw [hb] at hq
        rcases hfw : st.forward w with ⟨r, w1⟩
        cases r with
        | none =>
          have hs : NewInMemoryStateManager.SetStepState (i : Int) true σ =
              (none, ((i : Int), true) :: σ) := rfl
          rw [execLoop_fwdOk steps _ i σ w tr st σ w1 _ hcase hq hfw hs] at hrun
          refine ih (i + 1) (by omega) _ w1 _ out ?_ hrun
          intro j hmem
          rcases List.mem_append.mp hmem with h | h
          · exact htr j h
          · simp only [List.mem_cons, List.not_mem_nil, or_false] at h
            rcases h with h | h
            · exact Ev.noConfusion h
            · exact Ev.noConfusion h
        | some ferr =>
          have hs : NewInMemoryStateManager.SetStepState (i : Int) false σ =
              (none, ((i : Int), false) :: σ) := rfl
          have hcm := Compensate_spec NewInMemoryStateManager steps i hilen w1
          rw [execLoop_fail steps _ i σ w tr st σ ferr w1 _ _ hcase hq hfw hs hcm]
            at hrun
          cases hrun
          refine Or.inr ⟨tr ++ [Ev.forward i], i, ?_, ?_, rfl, ?_⟩
          · dsimp only
            simp
          · intro j hmem
            rcases List.mem_append.mp hmem with h | h
            · exact htr j h
            · simp only [List.mem_cons, List.not_mem_nil, or_false] at h
              exact Ev.noConfusion h
          · dsimp only
            exact lookup_cons_self _ _ _

/-- When the execute loop returns a nil error, the loop ran to completion:
the final currentStep equals the number of steps. -/
theorem successCS {σ ω : Type} (steps : List (Step ω)) (sm : StateManager σ) :
    ∀ (m i : Nat), steps.length - i ≤ m → i ≤ steps.length →
    ∀ (σst : σ) (w : ω) (tr : List Ev) (out : ExecOut σ ω),
    execLoop steps sm i σst w tr = .ok out → out.err = none →
    out.currentStep = (steps.length : Int) := by
  intro m
  induction m with
  | zero =>
    intro i hi hile σst w tr out hrun herr
    have hget : steps.get? i = none := List.get?_eq_none.mpr (by omega)
    rw [execLoop_end _ _ _ _ _ _ hget] at hrun
    cases hrun
    dsimp only
    congr 1
    omega
  | succ m ih =>
    intro i hi hile σst w tr out hrun herr
    cases hcase : steps.get? i with
    | none =>
      have hlei : steps.length ≤ i := List.get?_eq_none.mp hcase
      rw [execLoop_end _ _ _ _ _ _ hcase] at hrun
      cases hrun
      dsimp only
      congr 1
      omega
    | some st =>
      have hilen : i < steps.length := (List.get?_eq_some.mp hcase).1
      rcases hq : sm.StepState (i : Int) σst with ⟨q, σ1⟩
      cases q with
      | error e =>
        rw [execLoop_readErr steps sm i σst w tr st e σ1 hcase hq] at hrun
        cases hrun
        exact absurd herr (by simp)
      | ok b =>
        cases b with
        | true =>
          rw [execLoop_skip steps sm i σst w tr st σ1 hcase hq] at hrun
          exact ih (i + 1) (by omega) (by omega) σ1 w tr out hrun herr
        | false =>
          rcases hfw : st.forward w with ⟨r, w1⟩
          cases r with
          | none =>
            rcases hs : sm.SetStepState (i : Int) true σ1 with ⟨rs, σ2⟩
            cases rs with
            | none =>
              rw [execLoop_fwdOk steps sm i σst w tr st σ1 w1 σ2 hcase hq hfw hs]
                at hrun
              exact ih (i + 1) (by omega) (by omega) σ2 w1 _ out hrun herr
            | some serr =>
              rw [execLoop_setErrOk steps sm i σst w tr st σ1 w1 serr σ2
                hcase hq hfw hs] at hrun
              cases hrun
              exact absurd herr (by simp)
          | some ferr =>
            rcases hs : sm.SetStepState (i : Int) false σ1 with ⟨rs, σ2⟩
            cases rs with
            | none =>
              have hcm := Compensate_spec sm steps i hilen w1
              rw [execLoop_fail steps sm i σst w tr st σ1 ferr w1 σ2 _
                hcase hq hfw hs hcm] at hrun
              cases hrun
              dsimp only at herr
              split at herr <;> simp at herr
            | some serr =>
              rw [execLoop_setErrFail steps sm i σst w tr st σ1 ferr w1 serr σ2
                hcase hq hfw hs] at hrun
              cases hrun
              exact absurd herr (by simp)

/-- Forward progress of the execute loop over an arbitrary state manager
whose reads report not-completed and whose success writes succeed below k:
the loop runs from index i up to index k, emitting only forward events and
success writes for the indices in between. -/
theorem runGen {σ ω : Type} (steps : List (Step ω)) (sm : StateManager σ)
    (k : Nat) (hk : k ≤ steps.length)
    (hR : ∀ (j : Nat) (σs : σ), j < k → (sm.StepState (j : Int) σs).1 = .ok false)
    (hW : ∀ (j : Nat) (σs : σ), j < k →
      (sm.SetStepState (j : Int) true σs).1 = none)
    (hF : ∀ (j : Nat) (hj : j < steps.length), j < k → ∀ w1 : ω,
      ((steps.get ⟨j, hj⟩).forward w1).1 = none) :
    ∀ (m i : Nat), i + m = k → ∀ (σst : σ) (w : ω) (tr : List Ev),
    ∃ (σ1 : σ) (w1 : ω) (trNew : List Ev),
      execLoop steps sm i σst w tr = execLoop steps sm k σ1 w1 (tr ++ trNew) ∧
      (∀ e ∈ trNew, ∃ j, i ≤ j ∧ j < k ∧
        (e = Ev.forward j ∨ e = Ev.setState j true)) := by
  intro m
  induction m with
  | zero =>
    intro i hi σst w tr
    have hik : i = k := by omega
    subst hik
    exact ⟨σst, w, [], by simp, by simp⟩
  | succ m ih =>
    intro i hi σst w tr
    have hik : i < k := by omega
    have hilen : i < steps.length := by omega
    have hget : steps.get? i = some (steps.get ⟨i, hilen⟩) := List.get?_eq_get hilen
    rcases hq : sm.StepState (i : Int) σst with ⟨q, σa⟩
    have hqv : q = .ok false := by
      have hx := hR i σst hik
      rw [hq] at hx
      exact hx
    subst hqv
    rcases hfw : (steps.get ⟨i, hilen⟩).forward w with ⟨r, w2⟩
    have hr : r = none := by
      have hx := hF i hilen hik w
      rw [hfw] at hx
      exact hx
    subst hr
    rcases hs : sm.SetStepState (i : Int) true σa with ⟨rs, σ2⟩
    have hrs : rs = none := by
      have hx := hW i σa hik
      rw [hs] at hx
      exact hx
    subst hrs
    rw [execLoop_fwdOk steps sm i σst w tr _ σa w2 σ2 hget hq hfw hs]
    obtain ⟨σ1, w1, trNew, heq, hev⟩ :=
      ih (i + 1) (by omega) σ2 w2 (tr ++ [Ev.forward i, Ev.setState i true])
    refine ⟨σ1, w1, [Ev.forward i, Ev.setState i true] ++ trNew, ?_, ?_⟩
    · rw [heq, List.append_assoc]
    · intro e he
      rcases List.mem_append.mp he with h | h
      · simp only [List.mem_cons, List.not_mem_nil, or_false] at h
        rcases h with h | h
        · exact ⟨i, le_refl i, hik, Or.inl h⟩
        · exact ⟨i, le_refl i, hik, Or.inr h⟩
      · obtain ⟨j, h1, h2, h3⟩ := hev e h
        exact ⟨j, by omega, h2, h3⟩

/-- A list with no compensation events filters to the empty list under
isCompEv. -/
theorem filter_comp_nil (l : List Ev)
    (h : ∀ e ∈ l, isCompEv e = false) : l.filter isCompEv = [] := by
  induction l with
  | nil => rfl
  | cons a l ih =>
    rw [List.filter_cons_of_neg]
    · exact ih fun e he => h e (List.mem_cons_of_mem a he)
    · simp [h a (List.mem_cons_self a l)]

/-- A list of compensation events filters to itself under isCompEv. -/
theorem filter_comp_map (xs : List Nat) :
    (xs.map Ev.compensate).filter isCompEv = xs.map Ev.compensate := by
  induction xs with
  | nil => rfl
  | cons a xs ih =>
    simp only [List.map_cons]
    rw [List.filter_cons_of_pos]
    · rw [ih]
    · rfl

/-- C2: for every saga run against the (always-succeeding) in-memory state
store, if every step's forward action succeeds then Execute returns success
(nil error), no compensating action is ever invoked, and afterwards the
store reports every step index from 0 to len(steps)-1 as completed. -/
theorem sagaC2 {ω : Type} (steps : List (Step ω)) (σ0 : InMemoryState) (w : ω)
    (hf : ∀ (j : Nat) (hj : j < steps.length), ∀ w1 : ω,
      ((steps.get ⟨j, hj⟩).forward w1).1 = none) :
    ∃ out : ExecOut InMemoryState ω,
      Execute ⟨steps, 0, NewInMemoryStateManager⟩ σ0 w = .ok out ∧
      out.err = none ∧
      (∀ j, Ev.compensate j ∉ out.trace) ∧
      ∀ (j : Nat), j < steps.length →
        (NewInMemoryStateManager.StepState (j : Int) out.store).1 = .ok true := by
  obtain ⟨σ1, w1, trNew, heq, hpre, htrue, hev⟩ :=
    runTo steps steps.length (le_refl _) (fun j hj _ w1 => hf j hj w1)
      steps.length 0 (by omega) σ0 w []
  have hget : steps.get? steps.length = none := List.get?_eq_none.mpr (le_refl _)
  rw [show Execute ⟨steps, 0, NewInMemoryStateManager⟩ σ0 w =
    execLoop steps NewInMemoryStateManager 0 σ0 w [] from rfl]
  rw [heq, execLoop_end _ _ _ _ _ _ hget]
  refine ⟨_, rfl, rfl, ?_, ?_⟩
  · intro j hmem
    dsimp only at hmem
    rw [List.nil_append] at hmem
    obtain ⟨j2, _, _, h3⟩ := hev _ hmem
    rcases h3 with h | h <;> exact Ev.noConfusion h
  · intro j hj
    have hlj := htrue j (Nat.zero_le j) hj
    show (inMemoryGet (j : Int) σ1).1 = .ok true
    rw [inMemoryGet_eq, hlj]
    rfl

/-- C1: running a saga against the in-memory store holding no prior
records, if every step below k has an always-succeeding forward action and
step k's forward action always fails, then Execute returns an error, the
compensating actions invoked are exactly those of steps k, k-1, ..., 0 in
that order, and no step above k has its forward or compensating action
invoked. -/
theorem sagaC1 {ω : Type} (steps : List (Step ω)) (k : Nat)
    (hk : k < steps.length) (w : ω)
    (hf : ∀ (j : Nat) (hj : j < steps.length), j < k → ∀ w1 : ω,
      ((steps.get ⟨j, hj⟩).forward w1).1 = none)
    (hfk : ∀ w1 : ω, (((steps.get ⟨k, hk⟩).forward w1).1).isSome) :
    ∃ out : ExecOut InMemoryState ω,
      Execute ⟨steps, 0, NewInMemoryStateManager⟩ [] w = .ok out ∧
      out.err.isSome ∧
      out.trace.filter isCompEv =
        (List.range (k + 1)).reverse.map Ev.compensate ∧
      (∀ j, k < j → Ev.forward j ∉ out.trace ∧ Ev.compensate j ∉ out.trace) := by
  obtain ⟨σ1, w1, trNew, heq, hpre, htrue, hev⟩ :=
    runTo steps k (le_of_lt hk) hf k 0 (by omega) [] w []
  have hlk : List.lookup (k : Int) σ1 = none := by
    rw [hpre k (Or.inr (le_refl k))]
    rfl
  have hq := inMemoryGet_eq (k : Int) σ1
  rw [hlk] at hq
  have hget : steps.get? k = some (steps.get ⟨k, hk⟩) := List.get?_eq_get hk
  rcases hfw : (steps.get ⟨k, hk⟩).forward w1 with ⟨r, w2⟩
  have hrs : r.isSome := by
    have hx := hfk w1
    rw [hfw] at hx
    exact hx
  obtain ⟨ferr, hr⟩ := Option.isSome_iff_exists.mp hrs
  subst hr
  have hs : NewInMemoryStateManager.SetStepState (k : Int) false σ1 =
      (none, ((k : Int), false) :: σ1) := rfl
  have hcm := Compensate_spec NewInMemoryStateManager steps k hk w2
  rw [show Execute ⟨steps, 0, NewInMemoryStateManager⟩ [] w =
    execLoop steps NewInMemoryStateManager 0 [] w [] from rfl]
  rw [heq, execLoop_fail steps _ k σ1 w1 ([] ++ trNew) _ σ1 ferr w2 _ _
    hget hq hfw hs hcm]
  have htrNew : ∀ e ∈ trNew, isCompEv e = false := by
    intro e he
    obtain ⟨j2, _, _, h3⟩ := hev e he
    rcases h3 with h | h <;> (rw [h]; rfl)
  refine ⟨_, rfl, by simp, ?_, ?_⟩
  · dsimp only
    rw [List.nil_append, List.filter_append, List.filter_append]
    rw [filter_comp_nil trNew htrNew]
    rw [show List.filter isCompEv [Ev.forward k, Ev.setState k false] = []
      from rfl]
    rw [filter_comp_map]
    simp
  · intro j hj
    constructor
    · intro hmem
      dsimp only at hmem
      rcases List.mem_append.mp hmem with h | h
      · rcases List.mem_append.mp h with h2 | h2
        · rw [List.nil_append] at h2
          obtain ⟨j2, _, hlt, h3⟩ := hev _ h2
          rcases h3 with h4 | h4
          · injection h4 with h5
            omega
          · exact Ev.noConfusion h4
        · simp only [List.mem_cons, List.not_mem_nil, or_false] at h2
          rcases h2 with h4 | h4
          · injection h4 with h5
            omega
          · exact Ev.noConfusion h4
      · obtain ⟨j2, _, h3⟩ := List.mem_map.mp h
        exact Ev.noConfusion h3
    · intro hmem
      dsimp only at hmem
      rcases List.mem_append.mp hmem with h | h
      · rcases List.mem_append.mp h with h2 | h2
        · rw [List.nil_append] at h2
          obtain ⟨j2, _, hlt, h3⟩ := hev _ h2
          rcases h3 with h4 | h4 <;> exact Ev.noConfusion h4
        · simp only [List.mem_cons, List.not_mem_nil, or_false] at h2
          rcases h2 with h4 | h4 <;> exact Ev.noConfusion h4
      · obtain ⟨j2, hj2, h3⟩ := List.mem_map.mp h
        injection h3 with h4
        rw [List.mem_reverse, List.mem_range] at hj2
        omega

/-- C3: retry skips completed steps. Over the persistent in-memory store,
if a first Execute run succeeds for every step below k and fails at step k,
then a second Execute call on the same saga with the surviving store never
re-invokes the forward action of any step below k. -/
theorem sagaC3 {ω : Type} (steps : List (Step ω)) (k : Nat)
    (hk : k < steps.length) (w w2 : ω)
    (hf : ∀ (j : Nat) (hj : j < steps.length), j < k → ∀ w1 : ω,
      ((steps.get ⟨j, hj⟩).forward w1).1 = none)
    (hfk : ∀ w1 : ω, (((steps.get ⟨k, hk⟩).forward w1).1).isSome)
    (out1 out2 : ExecOut InMemoryState ω)
    (hrun1 : Execute ⟨steps, 0, NewInMemoryStateManager⟩ [] w = .ok out1)
    (hrun2 : Execute ⟨steps, out1.currentStep, NewInMemoryStateManager⟩
      out1.store w2 = .ok out2) :
    ∀ j, j < k → Ev.forward j ∉ out2.trace := by
  obtain ⟨σ1, w1, trNew, heq, hpre, htrue, hev⟩ :=
    runTo steps k (le_of_lt hk) hf k 0 (by omega) [] w []
  have hlk : List.lookup (k : Int) σ1 = none := by
    rw [hpre k (Or.inr (le_refl k))]
    rfl
  have hq := inMemoryGet_eq (k : Int) σ1
  rw [hlk] at hq
  have hget : steps.get? k = some (steps.get ⟨k, hk⟩) := List.get?_eq_get hk
  rcases hfw : (steps.get ⟨k, hk⟩).forward w1 with ⟨r, w3⟩
  have hrs : r.isSome := by
    have hx := hfk w1
    rw [hfw] at hx
    exact hx
  obtain ⟨ferr, hr⟩ := Option.isSome_iff_exists.mp hrs
  subst hr
  have hs : NewInMemoryStateManager.SetStepState (k : Int) false σ1 =
      (none, ((k : Int), false) :: σ1) := rfl
  have hcm := Compensate_spec NewInMemoryStateManager steps k hk w3
  have hrun1x : execLoop steps NewInMemoryStateManager 0 [] w [] = .ok out1 :=
    hrun1
  rw [heq, execLoop_fail steps _ k σ1 w1 ([] ++ trNew) _ σ1 ferr w3 _ _
    hget hq hfw hs hcm] at hrun1x
  have hout1 := (GoResult.ok.inj hrun1x).symm
  have hstore : ∀ j : Nat, j < k →
      List.lookup (j : Int) out1.store = some true := by
    intro j hj
    rw [hout1]
    dsimp only
    rw [lookup_cons_ne _ _ _ _ (by
      intro hcontra
      have : j = k := by exact_mod_cast hcontra
      omega)]
    exact htrue j (Nat.zero_le j) hj
  intro j hj hmem
  have hrun2x : execLoop steps NewInMemoryStateManager 0 out1.store w2 [] =
      .ok out2 := hrun2
  have := noForward steps k steps.length 0 (by omega) out1.store w2 [] out2
    (fun j2 hj2 _ => hstore j2 hj2) hrun2x j hj hmem
  exact List.not_mem_nil _ this

/-- C4: state-record invariant. After any Execute run over the in-memory
store (whose writes always succeed), every index below the final
currentStep is recorded completed; and if any compensating action was
invoked, the trace ends with the failing step's not-completed write
followed immediately by the compensation pass, no compensation event
precedes that write, the failing step is the final currentStep, and its
record is false. -/
theorem sagaC4 {ω : Type} (steps : List (Step ω)) (σ0 : InMemoryState)
    (w : ω) (out : ExecOut InMemoryState ω)
    (hrun : Execute ⟨steps, 0, NewInMemoryStateManager⟩ σ0 w = .ok out) :
    (∀ j : Nat, (j : Int) < out.currentStep →
      List.lookup (j : Int) out.store = some true) ∧
    ((∃ j, Ev.compensate j ∈ out.trace) →
      ∃ t1 mIdx, out.trace = t1 ++ Ev.setState mIdx false ::
          (List.range (mIdx + 1)).reverse.map Ev.compensate ∧
        (∀ j, Ev.compensate j ∉ t1) ∧ (mIdx : Int) = out.currentStep ∧
        List.lookup (mIdx : Int) out.store = some false) := by
  have hrunx : execLoop steps NewInMemoryStateManager 0 σ0 w [] = .ok out :=
    hrun
  constructor
  · exact invLookup steps steps.length 0 (by omega) σ0 w [] out
      (fun j hj => absurd hj (by omega)) hrunx
  · intro hex
    obtain ⟨j, hmem⟩ := hex
    rcases traceShape steps steps.length 0 (by omega) σ0 w [] out
      (by simp) hrunx with h | h
    · exact absurd hmem (h j)
    · exact h

/-- C5: compensation is best-effort and aggregating. For any saga whose
currentStep c is in range, Compensate invokes the compensating action of
every step from c down to 0 in that order (regardless of failures along
the way), and returns nil when no compensation failed, or a single error
aggregating all collected failure messages (highest index first)
otherwise. -/
theorem sagaC5 {σ ω : Type} (sm : StateManager σ) (steps : List (Step ω))
    (c : Nat) (hc : c < steps.length) (w : ω) :
    ∃ out : CompOut ω,
      Compensate ⟨steps, (c : Int), sm⟩ w = .ok out ∧
      out.trace = (List.range (c + 1)).reverse.map Ev.compensate ∧
      (∀ j, j ≤ c → Ev.compensate j ∈ out.trace) ∧
      out.err = (if 0 < (compFails steps c w).1.length then
        some (wrap "compensation failed with errors"
          (fmtErrs (compFails steps c w).1))
      else none) := by
  refine ⟨_, Compensate_spec sm steps c hc w, rfl, ?_, rfl⟩
  intro j hj
  dsimp only
  rw [List.mem_map]
  exact ⟨j, by rw [List.mem_reverse, List.mem_range]; omega, rfl⟩

/-- C6: state-write fatality. Over any state manager that reads
not-completed up to step k, successfully records successes below k, but
fails to record step k's outcome (flag b, error message e), if steps below
k always succeed going forward and step k's forward action succeeds
exactly when b is true, then Execute returns the wrapped state-write error
naming step k and invokes no compensating action, even in the b = true
case where step k's own forward action succeeded. -/
theorem sagaC6 {σ ω : Type} (sm : StateManager σ) (steps : List (Step ω))
    (k : Nat) (hk : k < steps.length) (b : Bool) (e : String) (σ0 : σ) (w : ω)
    (hR : ∀ (j : Nat) (σs : σ), j ≤ k → (sm.StepState (j : Int) σs).1 = .ok false)
    (hW : ∀ (j : Nat) (σs : σ), j < k →
      (sm.SetStepState (j : Int) true σs).1 = none)
    (hF : ∀ (j : Nat) (hj : j < steps.length), j < k → ∀ w1 : ω,
      ((steps.get ⟨j, hj⟩).forward w1).1 = none)
    (hFk : ∀ w1 : ω, (((steps.get ⟨k, hk⟩).forward w1).1).isSome = !b)
    (hWk : ∀ σs : σ, (sm.SetStepState (k : Int) b σs).1 = some e) :
    ∃ out : ExecOut σ ω,
      Execute ⟨steps, 0, sm⟩ σ0 w = .ok out ∧
      out.err = some (wrap
        ("setting state for step " ++ (steps.get ⟨k, hk⟩).name) e) ∧
      (∀ j, Ev.compensate j ∉ out.trace) := by
  obtain ⟨σ1, w1, trNew, heq, hev⟩ :=
    runGen steps sm k (le_of_lt hk) (fun j σs hj => hR j σs (le_of_lt hj))
      hW hF k 0 (by omega) σ0 w []
  have hget : steps.get? k = some (steps.get ⟨k, hk⟩) := List.get?_eq_get hk
  rcases hq : sm.StepState (k : Int) σ1 with ⟨q, σa⟩
  have hqv : q = .ok false := by
    have hx := hR k σ1 (le_refl k)
    rw [hq] at hx
    exact hx
  subst hqv
  have hrunx : Execute ⟨steps, 0, sm⟩ σ0 w =
      execLoop steps sm 0 σ0 w [] := rfl
  rcases hfw : (steps.get ⟨k, hk⟩).forward w1 with ⟨r, w2⟩
  have hnocomp : ∀ (tl : List Ev), (∀ x ∈ tl, x = Ev.forward k ∨
      ∃ bx, x = Ev.setState k bx) → ∀ j,
      Ev.compensate j ∉ (([] : List Ev) ++ trNew) ++ tl := by
    intro tl htl j hmem
    rcases List.mem_append.mp hmem with h | h
    · rw [List.nil_append] at h
      obtain ⟨j2, _, _, h3⟩ := hev _ h
      rcases h3 with h4 | h4 <;> exact Ev.noConfusion h4
    · rcases htl _ h with h4 | ⟨bx, h4⟩ <;> exact Ev.noConfusion h4
  cases b with
  | true =>
    have hr : r = none := by
      have hx := hFk w1
      rw [hfw] at hx
      cases r with
      | none => rfl
      | some x => simp at hx
    subst hr
    rcases hs : sm.SetStepState (k : Int) true σa with ⟨rs, σ2⟩
    have hrs : rs = some e := by
      have hx := hWk σa
      rw [hs] at hx
      exact hx
    subst hrs
    rw [hrunx, heq, execLoop_setErrOk steps sm k σ1 w1 ([] ++ trNew) _ σa w2 e σ2
      hget hq hfw hs]
    refine ⟨_, rfl, rfl, ?_⟩
    exact hnocomp [Ev.forward k, Ev.setState k true] (by
      intro x hx
      simp only [List.mem_cons, List.not_mem_nil, or_false] at hx
      rcases hx with h | h
      · exact Or.inl h
      · exact Or.inr ⟨true, h⟩)
  | false =>
    have hrs2 : r.isSome := by
      have hx := hFk w1
      rw [hfw] at hx
      simpa using hx
    obtain ⟨ferr, hr⟩ := Option.isSome_iff_exists.mp hrs2
    subst hr
    rcases hs : sm.SetStepState (k : Int) false σa with ⟨rs, σ2⟩
    have hrs : rs = some e := by
      have hx := hWk σa
      rw [hs] at hx
      exact hx
    subst hrs
    rw [hrunx, heq, execLoop_setErrFail steps sm k σ1 w1 ([] ++ trNew) _ σa
      ferr w2 e σ2 hget hq hfw hs]
    refine ⟨_, rfl, rfl, ?_⟩
    exact hnocomp [Ev.forward k, Ev.setState k false] (by
      intro x hx
      simp only [List.mem_cons, List.not_mem_nil, or_false] at hx
      rcases hx with h | h
      · exact Or.inl h
      · exact Or.inr ⟨false, h⟩)

/-- C7: state-read fatality. Over any state manager that reads
not-completed and writes successfully below step i but whose completion
query for step i always fails with message e, if steps below i always
succeed going forward, then Execute aborts with the wrapped state-read
error naming step i, without invoking the forward action of step i or of
any later step, and without invoking any compensating action. -/
theorem sagaC7 {σ ω : Type} (sm : StateManager σ) (steps : List (Step ω))
    (i : Nat) (hi : i < steps.length) (e : String) (σ0 : σ) (w : ω)
    (hR : ∀ (j : Nat) (σs : σ), j < i → (sm.StepState (j : Int) σs).1 = .ok false)
    (hW : ∀ (j : Nat) (σs : σ), j < i →
      (sm.SetStepState (j : Int) true σs).1 = none)
    (hF : ∀ (j : Nat) (hj : j < steps.length), j < i → ∀ w1 : ω,
      ((steps.get ⟨j, hj⟩).forward w1).1 = none)
    (hRi : ∀ σs : σ, (sm.StepState (i : Int) σs).1 = .error e) :
    ∃ out : ExecOut σ ω,
      Execute ⟨steps, 0, sm⟩ σ0 w = .ok out ∧
      out.err = some (wrap
        ("retrieving state for step " ++ (steps.get ⟨i, hi⟩).name) e) ∧
      (∀ j, i ≤ j → Ev.forward j ∉ out.trace) ∧
      (∀ j, Ev.compensate j ∉ out.trace) := by
  obtain ⟨σ1, w1, trNew, heq, hev⟩ :=
    runGen steps sm i hi.le hR hW hF i 0 (by omega) σ0 w []
  have hget : steps.get? i = some (steps.get ⟨i, hi⟩) := List.get?_eq_get hi
  rcases hq : sm.StepState (i : Int) σ1 with ⟨q, σa⟩
  have hqv : q = .error e := by
    have hx := hRi σ1
    rw [hq] at hx
    exact hx
  subst hqv
  have hrunx : Execute ⟨steps, 0, sm⟩ σ0 w =
      execLoop steps sm 0 σ0 w [] := rfl
  rw [hrunx, heq, execLoop_readErr steps sm i σ1 w1 ([] ++ trNew) _ e σa
    hget hq]
  refine ⟨_, rfl, rfl, ?_, ?_⟩
  · intro j hj hmem
    dsimp only at hmem
    rw [List.nil_append] at hmem
    obtain ⟨j2, _, hlt, h3⟩ := hev _ hmem
    rcases h3 with h4 | h4
    · injection h4 with h5
      omega
    · exact Ev.noConfusion h4
  · intro j hmem
    dsimp only at hmem
    rw [List.nil_append] at hmem
    obtain ⟨j2, _, _, h3⟩ := hev _ hmem
    rcases h3 with h4 | h4 <;> exact Ev.noConfusion h4

/-- C8: exact error messages in the two-step scenarios of saga_test.go.
When step 2 fails forward with "step2 error" and compensations succeed,
Execute returns the error "executing step step2: step2 error" and both
compensating actions run, step 2's then step 1's; when step 2's
compensating action also fails with "step2 compensate error", Execute
instead returns the chained error "compensating after failure in step
step2: step2 error: compensation failed with errors: [step2 compensate
error]". -/
theorem sagaC8 :
    (∃ out : ExecOut InMemoryState Unit,
      Execute ⟨[step1U, step2U], 0, NewInMemoryStateManager⟩ [] () = .ok out ∧
      out.err = some "executing step step2: step2 error" ∧
      out.trace = [Ev.forward 0, Ev.setState 0 true, Ev.forward 1,
        Ev.setState 1 false, Ev.compensate 1, Ev.compensate 0]) ∧
    (∃ out : ExecOut InMemoryState Unit,
      Execute ⟨[step1U, step2c], 0, NewInMemoryStateManager⟩ [] () = .ok out ∧
      out.err = some "compensating after failure in step step2: step2 error: compensation failed with errors: [step2 compensate error]" ∧
      out.trace = [Ev.forward 0, Ev.setState 0 true, Ev.forward 1,
        Ev.setState 1 false, Ev.compensate 1, Ev.compensate 0]) := by
  constructor
  · refine ⟨⟨1, [(1, false), (0, true)], (),
      some "executing step step2: step2 error",
      [Ev.forward 0, Ev.setState 0 true, Ev.forward 1, Ev.setState 1 false,
        Ev.compensate 1, Ev.compensate 0]⟩, ?_, rfl, rfl⟩
    simp [Execute, execLoop, compLoop, Compensate, step1U, step2U,
      NewInMemoryStateManager, inMemoryGet, inMemorySet, wrap, fmtErrs,
      List.lookup]
  · refine ⟨⟨1, [(1, false), (0, true)], (),
      some "compensating after failure in step step2: step2 error: compensation failed with errors: [step2 compensate error]",
      [Ev.forward 0, Ev.setState 0 true, Ev.forward 1, Ev.setState 1 false,
        Ev.compensate 1, Ev.compensate 0]⟩, ?_, rfl, rfl⟩
    simp [Execute, execLoop, compLoop, Compensate, step1U, step2c,
      NewInMemoryStateManager, inMemoryGet, inMemorySet, wrap, fmtErrs,
      List.lookup]
    rfl

/-- C9: in-memory store round-trip. When no record exists for an index the
read returns false with no error; a write always succeeds and a subsequent
read of the same index returns the written flag, whatever was recorded
before; and reads never return an error. -/
theorem sagaC9 (s : InMemoryState) (i : Int) (b : Bool) :
    (List.lookup i s = none →
      NewInMemoryStateManager.StepState i s = (.ok false, s)) ∧
    (NewInMemoryStateManager.SetStepState i b s).1 = none ∧
    NewInMemoryStateManager.StepState i
        ((NewInMemoryStateManager.SetStepState i b s).2) =
      (.ok b, (NewInMemoryStateManager.SetStepState i b s).2) ∧
    ∃ v : Bool, (NewInMemoryStateManager.StepState i s).1 = .ok v := by
  refine ⟨?_, rfl, ?_, ?_⟩
  · intro h
    show inMemoryGet i s = _
    rw [inMemoryGet_eq, h]
    rfl
  · show inMemoryGet i ((i, b) :: s) = _
    rw [inMemoryGet_eq, lookup_cons_self]
    rfl
  · show ∃ v, (inMemoryGet i s).1 = .ok v
    rw [inMemoryGet_eq]
    exact ⟨_, rfl⟩

/-- C10: Compensate indexes the step slice from currentStep down to 0 with
no bounds check. It is panic-free exactly when currentStep is below the
number of steps (given the nonnegative currentStep values the engine
produces): with currentStep in range it returns normally; with currentStep
at or past the number of steps — as on a freshly constructed saga with no
steps, or after a fully successful Execute — the first index access is out
of range and panics. -/
theorem sagaC10 :
    (∀ (σT ω : Type) (sm : StateManager σT) (steps : List (Step ω)) (c : Int)
      (w : ω), 0 ≤ c → c < (steps.length : Int) →
      ∃ out, Compensate ⟨steps, c, sm⟩ w = .ok out) ∧
    (∀ (σT ω : Type) (sm : StateManager σT) (steps : List (Step ω)) (c : Int)
      (w : ω), (steps.length : Int) ≤ c →
      Compensate ⟨steps, c, sm⟩ w = .panic) ∧
    Compensate (NewSaga Unit) () = .panic ∧
    (∀ (ω : Type) (steps : List (Step ω)) (σ0 : InMemoryState) (w w2 : ω)
      (out : ExecOut InMemoryState ω),
      Execute ⟨steps, 0, NewInMemoryStateManager⟩ σ0 w = .ok out →
      out.err = none →
      Compensate ⟨steps, out.currentStep, NewInMemoryStateManager⟩ w2 =
        .panic) := by
  refine ⟨?_, ?_, ?_, ?_⟩
  · intro σT ω sm steps c w h0 hlt
    have hc : c = ((c.toNat : Nat) : Int) := by omega
    rw [hc]
    exact ⟨_, Compensate_spec sm steps c.toNat (by omega) w⟩
  · intro σT ω sm steps c w hle
    exact Compensate_panic sm steps c hle w
  · exact Compensate_panic NewInMemoryStateManager [] 0 (by simp) ()
  · intro ω steps σ0 w w2 out hrun herr
    have hrunx : execLoop steps NewInMemoryStateManager 0 σ0 w [] = .ok out :=
      hrun
    have hcs := successCS steps NewInMemoryStateManager steps.length 0
      (by omega) (by omega) σ0 w [] out hrunx herr
    rw [hcs]
    exact Compensate_panic _ _ _ (le_refl _) w2

/-- Witness for C1 at the two-step saga whose second step fails. -/
theorem sagaC1_w :
    ∃ out : ExecOut InMemoryState Unit,
      Execute ⟨[step1U, step2U], 0, NewInMemoryStateManager⟩ [] () = .ok out ∧
      out.err.isSome ∧
      out.trace.filter isCompEv =
        (List.range (1 + 1)).reverse.map Ev.compensate ∧
      (∀ j, 1 < j → Ev.forward j ∉ out.trace ∧ Ev.compensate j ∉ out.trace) :=
  sagaC1 [step1U, step2U] 1 (by simp) ()
    (fun j hj hlt w1 => by
      have hj0 : j = 0 := by omega
      subst hj0
      rfl)
    (fun w1 => rfl)

/-- Witness for C2 at the one-step saga whose step always succeeds. -/
theorem sagaC2_w :
    ∃ out : ExecOut InMemoryState Unit,
      Execute ⟨[step1U], 0, NewInMemoryStateManager⟩ [] () = .ok out ∧
      out.err = none ∧
      (∀ j, Ev.compensate j ∉ out.trace) ∧
      ∀ (j : Nat), j < [step1U].length →
        (NewInMemoryStateManager.StepState (j : Int) out.store).1 = .ok true :=
  sagaC2 [step1U] [] ()
    (fun j hj w1 => by
      have hlen : [step1U].length = 1 := rfl
      have hj0 : j = 0 := by omega
      subst hj0
      rfl)

/-- Witness for C3: the concrete retry of the two-step saga whose second
step fails does not re-run step 1. -/
theorem sagaC3_w : Ev.forward 0 ∉ demoOut2.trace :=
  sagaC3 [step1U, step2U] 1 (by simp) () ()
    (fun j hj hlt w1 => by
      have hj0 : j = 0 := by omega
      subst hj0
      rfl)
    (fun w1 => rfl)
    demoOut1 demoOut2
    (by simp [Execute, execLoop, compLoop, Compensate, step1U, step2U,
      NewInMemoryStateManager, inMemoryGet, inMemorySet, wrap, fmtErrs,
      List.lookup, demoOut1])
    (by simp [Execute, execLoop, compLoop, Compensate, step1U, step2U,
      NewInMemoryStateManager, inMemoryGet, inMemorySet, wrap, fmtErrs,
      List.lookup, demoOut1, demoOut2])
    0 (by omega)

/-- Witness for C4 at the concrete failing two-step run. -/
theorem sagaC4_w :
    (∀ j : Nat, (j : Int) < demoOut1.currentStep →
      List.lookup (j : Int) demoOut1.store = some true) ∧
    ((∃ j, Ev.compensate j ∈ demoOut1.trace) →
      ∃ t1 mIdx, demoOut1.trace = t1 ++ Ev.setState mIdx false ::
          (List.range (mIdx + 1)).reverse.map Ev.compensate ∧
        (∀ j, Ev.compensate j ∉ t1) ∧ (mIdx : Int) = demoOut1.currentStep ∧
        List.lookup (mIdx : Int) demoOut1.store = some false) :=
  sagaC4 [step1U, step2U] [] () demoOut1
    (by simp [Execute, execLoop, compLoop, Compensate, step1U, step2U,
      NewInMemoryStateManager, inMemoryGet, inMemorySet, wrap, fmtErrs,
      List.lookup, demoOut1])

/-- Witness for C5 at the two-step saga whose second compensation fails. -/
theorem sagaC5_w :
    ∃ out : CompOut Unit,
      Compensate ⟨[step1U, step2c], ((1 : Nat) : Int),
        NewInMemoryStateManager⟩ () = .ok out ∧
      out.trace = (List.range (1 + 1)).reverse.map Ev.compensate ∧
      (∀ j, j ≤ 1 → Ev.compensate j ∈ out.trace) ∧
      out.err = (if 0 < (compFails [step1U, step2c] 1 ()).1.length then
        some (wrap "compensation failed with errors"
          (fmtErrs (compFails [step1U, step2c] 1 ()).1))
      else none) :=
  sagaC5 NewInMemoryStateManager [step1U, step2c] 1 (by simp) ()

/-- Witness for C6 at a one-step saga over the write-failing state
manager. -/
theorem sagaC6_w :
    ∃ out : ExecOut Unit Unit,
      Execute ⟨[step1U], 0, failingSet⟩ () () = .ok out ∧
      out.err = some "setting state for step step1: boom" ∧
      (∀ j, Ev.compensate j ∉ out.trace) :=
  sagaC6 failingSet [step1U] 0 (by simp) true "boom" () ()
    (fun j σs hj => rfl)
    (fun j σs hj => absurd hj (by omega))
    (fun j hj hlt w1 => absurd hlt (by omega))
    (fun w1 => rfl)
    (fun σs => rfl)

/-- Witness for C7 at a one-step saga over the read-failing state
manager. -/
theorem sagaC7_w :
    ∃ out : ExecOut Unit Unit,
      Execute ⟨[step1U], 0, failingRead⟩ () () = .ok out ∧
      out.err = some "retrieving state for step step1: boom" ∧
      (∀ j, 0 ≤ j → Ev.forward j ∉ out.trace) ∧
      (∀ j, Ev.compensate j ∉ out.trace) :=
  sagaC7 failingRead [step1U] 0 (by simp) "boom" () ()
    (fun j σs hj => absurd hj (by omega))
    (fun j σs hj => absurd hj (by omega))
    (fun j hj hlt w1 => absurd hlt (by omega))
    (fun σs => rfl)

/-- Witness for C9 at the empty store, index 0, flag true. -/
theorem sagaC9_w :
    NewInMemoryStateManager.StepState 0 [] = (.ok false, []) ∧
    (NewInMemoryStateManager.SetStepState 0 true []).1 = none ∧
    NewInMemoryStateManager.StepState 0
        ((NewInMemoryStateManager.SetStepState 0 true []).2) =
      (.ok true, (NewInMemoryStateManager.SetStepState 0 true []).2) ∧
    ∃ v : Bool, (NewInMemoryStateManager.StepState 0 []).1 = .ok v := by
  have h := sagaC9 [] 0 true
  exact ⟨h.1 rfl, h.2.1, h.2.2.1, h.2.2.2⟩

/-- Witness for C10: a one-step saga compensates without panicking at
currentStep 0, and the empty saga panics there. -/
theorem sagaC10_w :
    (∃ out, Compensate ⟨[step1U], (0 : Int), NewInMemoryStateManager⟩ () =
      .ok out) ∧
    Compensate ⟨([] : List (Step Unit)), (0 : Int),
      NewInMemoryStateManager⟩ () = .panic := by
  constructor
  · exact sagaC10.1 InMemoryState Unit NewInMemoryStateManager [step1U] 0 ()
      (by omega) (by simp)
  · exact sagaC10.2.1 InMemoryState Unit NewInMemoryStateManager [] 0 ()
      (by simp)

end GoSaga
